import Mathlib

/-!
Verification of the python3-cpp-validator repository.

The development shallowly embeds the two source files:
  * src/src/tokenize.py — the lexer module (the spec's Lexer): patterns tried in
    the source's elif order, block comments, a three/two/one-character operator
    cascade, and a raise on unknown characters.
  * main.py — the Token record, the driver's older inline tokenize (no block
    comments, unknown characters fall back to one-character mark tokens), and
    validate_tokens (the spec's Scope Validator).

Python strings become List Char / String; the scan loop becomes a fuel-indexed
recursion (fuel = length of the code + 1, proved sufficient); Python exceptions
become explicit result constructors (LexResult.lexError for the lexer's raise,
Option.none for the ValueError that validate_tokens can raise while unpacking
re.split's result).
-/

/-- Token record of main.py / src/src/tokenize.py: tag is one of
"pp", "vd", "id", "num", "str", "mark". -/
structure Token where
  tag : String
  str : String
  lineno : Nat
  columnno : Nat
deriving DecidableEq

/-- The data carried by the raise in src/src/tokenize.py line 128:
the unknown character and its 1-based line/column. -/
structure LexError where
  ch : Char
  lineno : Nat
  columnno : Nat
deriving DecidableEq

/-- Cursor state of the scan loop: absolute index i, current line number
(1-based), and the offset of the current line's first character. -/
structure ScanState where
  i : Nat
  lineno : Nat
  linestart : Nat
deriving DecidableEq

/-- Matched prefix of the regex #[^\n]+ (preprocessor line): a hash sign then
one or more non-newline characters, greedy. -/
def matchPP : List Char → Option (List Char)
  | [] => none
  | c :: rest =>
    if c = '#' then
      if (rest.takeWhile (fun x => x ≠ '\n')).isEmpty then none
      else some (c :: rest.takeWhile (fun x => x ≠ '\n'))
    else none

/-- Body matched by the regex //![^\n]+ (validator directive): the token text is
the match with the three-character marker stripped (m.group()[3:]). -/
def matchVD : List Char → Option (List Char)
  | a :: b :: c :: rest =>
    if a = '/' ∧ b = '/' ∧ c = '!' then
      if (rest.takeWhile (fun x => x ≠ '\n')).isEmpty then none
      else some (rest.takeWhile (fun x => x ≠ '\n'))
    else none
  | _ => none

/-- Length matched by the regex //[^\n]+ (line comment): two slashes then one or
more non-newline characters. -/
def matchLC : List Char → Option Nat
  | a :: b :: rest =>
    if a = '/' ∧ b = '/' then
      if (rest.takeWhile (fun x => x ≠ '\n')).isEmpty then none
      else some (2 + (rest.takeWhile (fun x => x ≠ '\n')).length)
    else none
  | _ => none

/-- Matched prefix of the regex [ \t]+ (horizontal whitespace). -/
def matchWS (cs : List Char) : Option (List Char) :=
  if (cs.takeWhile (fun c => c = ' ' ∨ c = '\t')).isEmpty then none
  else some (cs.takeWhile (fun c => c = ' ' ∨ c = '\t'))

/-- First character of the regex [_a-zA-Z]\w* . -/
def isIdentStart (c : Char) : Bool :=
  c = '_' || c.isAlpha

/-- Continuation class \w of the identifier regex (ASCII reading). -/
def isWordChar (c : Char) : Bool :=
  c = '_' || c.isAlphanum

/-- Matched prefix of the regex [_a-zA-Z]\w* (identifier). -/
def matchIdent : List Char → Option (List Char)
  | c :: rest =>
    if isIdentStart c then some (c :: rest.takeWhile isWordChar) else none
  | [] => none

/-- Matched prefix of the regex \d+ (number literal). -/
def matchNum : List Char → Option (List Char)
  | c :: rest =>
    if c.isDigit then some (c :: rest.takeWhile Char.isDigit) else none
  | [] => none

/-- Backtracking match of the tail of the string-literal regex
"(?:[^"]|\\.)*" after its opening quote, in the regex engine's order: at each
position the greedy star first tries another element — the alternative [^"]
before \\. — and only then stops, which then requires the closing quote.
Returns the matched characters including the closing quote. -/
def strTail : List Char → Option (List Char)
  | [] => none
  | '"' :: _ => some ['"']
  | c :: rest =>
    match strTail rest with
    | some m => some (c :: m)
    | none =>
      if c = '\\' then
        match rest with
        | d :: rest2 =>
          if d = '\n' then none else (strTail rest2).map (fun m => c :: d :: m)
        | [] => none
      else none

/-- Matched prefix of the string-literal regex "(?:[^"]|\\.)*" . -/
def matchStr : List Char → Option (List Char)
  | [] => none
  | c :: rest =>
    if c = '"' then (strTail rest).map (fun m => c :: m) else none

/-- Matched prefix of the three-character mark regex ->\*|<<=|>>= . -/
def matchMark3 : List Char → Option (List Char)
  | a :: b :: c :: _ =>
    if (a = '-' ∧ b = '>' ∧ c = '*') ∨ (a = '<' ∧ b = '<' ∧ c = '=') ∨
        (a = '>' ∧ b = '>' ∧ c = '=') then some [a, b, c]
    else none
  | _ => none

/-- The two-character alternatives of the mark regex
->|\+\+|--|\.\*|<<|>>|[<>=!+\-*/%&^|]=|&&|\|\| listed in source order; since
they are pairwise distinct two-character literals, ordered alternation is
membership. -/
def twoCharMarks : List (Char × Char) :=
  [('-', '>'), ('+', '+'), ('-', '-'), ('.', '*'), ('<', '<'), ('>', '>'),
   ('<', '='), ('>', '='), ('=', '='), ('!', '='), ('+', '='), ('-', '='),
   ('*', '='), ('/', '='), ('%', '='), ('&', '='), ('^', '='), ('|', '='),
   ('&', '&'), ('|', '|')]

/-- Matched prefix of the two-character mark regex. -/
def matchMark2 : List Char → Option (List Char)
  | a :: b :: _ => if (a, b) ∈ twoCharMarks then some [a, b] else none
  | _ => none

/-- Character class of the one-character mark regex [()[\]{}.,:?+\-*/%~&^|=!] . -/
def singleMarks : List Char :=
  ['(', ')', '[', ']', '{', '}', '.', ',', ':', '?', '+', '-', '*', '/', '%',
   '~', '&', '^', '|', '=', '!']

/-- Matched prefix of the one-character mark regex. -/
def matchMark1 : List Char → Option (List Char)
  | c :: _ => if c ∈ singleMarks then some [c] else none
  | [] => none

/-- Inner while loop of the block-comment branch (src/src/tokenize.py lines
74-85): rest is code.drop i; stops after a closing */ or at end of input,
counting newlines into lineno/linestart. Returns the new (i, lineno, linestart). -/
def skipBC : List Char → Nat → Nat → Nat → Nat × Nat × Nat
  | [], i, lineno, linestart => (i, lineno, linestart)
  | c :: rs, i, lineno, linestart =>
    if c = '*' ∧ rs.head? = some '/' then (i + 2, lineno, linestart)
    else if c = '\n' then skipBC rs (i + 1) (lineno + 1) (i + 1)
    else skipBC rs (i + 1) lineno linestart

/-- Outcome of one iteration of the scan loop's elif chain. -/
inductive ScanHit where
  | tok : String → String → Nat → ScanHit
  | skip : Nat → ScanHit
  | newline : ScanHit
  | blockComment : ScanHit
  | err : Char → ScanHit
deriving DecidableEq

/-- The elif chain of src/src/tokenize.py lines 57-128 applied to subcode =
code[i:], in source order: preprocessor, directive, line comment, block
comment, newline, whitespace, identifier, number, string, marks by descending
length, then the raise. -/
def recognize (sub : List Char) : ScanHit :=
  match matchPP sub with
  | some m => .tok "pp" m.asString m.length
  | none =>
  match matchVD sub with
  | some b => .tok "vd" b.asString (b.length + 3)
  | none =>
  match matchLC sub with
  | some n => .skip n
  | none =>
  if sub.take 2 = ['/', '*'] then .blockComment
  else if sub.head? = some '\n' then .newline
  else
  match matchWS sub with
  | some w => .skip w.length
  | none =>
  match matchIdent sub with
  | some m => .tok "id" m.asString m.length
  | none =>
  match matchNum sub with
  | some m => .tok "num" m.asString m.length
  | none =>
  match matchStr sub with
  | some m => .tok "str" m.asString m.length
  | none =>
  match matchMark3 sub with
  | some m => .tok "mark" m.asString m.length
  | none =>
  match matchMark2 sub with
  | some m => .tok "mark" m.asString m.length
  | none =>
  match matchMark1 sub with
  | some m => .tok "mark" m.asString m.length
  | none =>
  match sub with
  | c :: _ => .err c
  | [] => .skip 0

/-- State update of one scan-loop iteration: emits the token (if any) at the
current line/column (columnno() = i - linestart + 1) and advances the cursor;
a block comment defers to skipBC from i + 2; the err hit is the raise. -/
def applyHit (code : List Char) (s : ScanState) :
    ScanHit → Except LexError (Option Token × ScanState)
  | .tok tag text len =>
    .ok (some ⟨tag, text, s.lineno, s.i - s.linestart + 1⟩,
         ⟨s.i + len, s.lineno, s.linestart⟩)
  | .skip len => .ok (none, ⟨s.i + len, s.lineno, s.linestart⟩)
  | .newline => .ok (none, ⟨s.i + 1, s.lineno + 1, s.i + 1⟩)
  | .blockComment =>
    let r := skipBC ((code.drop s.i).drop 2) (s.i + 2) s.lineno s.linestart
    .ok (none, ⟨r.1, r.2.1, r.2.2⟩)
  | .err c => .error ⟨c, s.lineno, s.i - s.linestart + 1⟩

/-- One iteration of the scan loop of src/src/tokenize.py. -/
def scanStep (code : List Char) (s : ScanState) :
    Except LexError (Option Token × ScanState) :=
  applyHit code s (recognize (code.drop s.i))

/-- Result of the lexer: the returned token list, the raise, or exhausted fuel
(the last never occurs for the fuel tokenize passes; see the C9 theorem). -/
inductive LexResult where
  | tokens : List Token → LexResult
  | lexError : LexError → LexResult
  | fuelOut : LexResult
deriving DecidableEq

/-- The while loop of src/src/tokenize.py lines 52-131, indexed by fuel so that
it is structurally recursive; each iteration consumes at least one character,
so fuel code.length + 1 is enough (proved for claim C9). -/
def tokenizeAux : Nat → List Char → ScanState → List Token → LexResult
  | 0, _, _, _ => .fuelOut
  | fuel + 1, code, s, acc =>
    if s.i < code.length then
      match scanStep code s with
      | .error e => .lexError e
      | .ok (t?, s') => tokenizeAux fuel code s' (acc ++ t?.toList)
    else .tokens acc

/-- Left-to-right non-overlapping replacement of "\r\n" by "\n", the meaning of
Python's code.replace('\r\n', '\n'). -/
def normalizeCRLF : List Char → List Char
  | [] => []
  | '\r' :: '\n' :: rest => '\n' :: normalizeCRLF rest
  | c :: rest => c :: normalizeCRLF rest

/-- Normalization at the top of both tokenizers:
code = code.replace('\r\n', '\n'). -/
def pyNormalize (code : String) : List Char :=
  normalizeCRLF code.toList

/-- tokenize of src/src/tokenize.py: normalize line endings, then scan from
i = 0, lineno = 1, linestart = 0. -/
def tokenize (code : String) : LexResult :=
  let cs := pyNormalize code
  tokenizeAux (cs.length + 1) cs ⟨0, 1, 0⟩ []

/-- Result of the instrumented lexer, whose tokens are paired with the
source offset (the cursor value i) at which they were matched. -/
inductive LexResultI where
  | tokens : List (Nat × Token) → LexResultI
  | lexError : LexError → LexResultI
  | fuelOut : LexResultI
deriving DecidableEq

/-- The same scan loop as tokenizeAux, additionally recording for each token
the cursor offset at which it starts (a proof instrument; erasing the offsets
gives back tokenizeAux, see tokenizeAuxI_erase). -/
def tokenizeAuxI : Nat → List Char → ScanState → List (Nat × Token) → LexResultI
  | 0, _, _, _ => .fuelOut
  | fuel + 1, code, s, acc =>
    if s.i < code.length then
      match scanStep code s with
      | .error e => .lexError e
      | .ok (t?, s') =>
        tokenizeAuxI fuel code s' (acc ++ (t?.map (fun t => (s.i, t))).toList)
    else .tokens acc

/-- Offset-instrumented tokenize of src/src/tokenize.py. -/
def tokenizeI (code : String) : LexResultI :=
  let cs := pyNormalize code
  tokenizeAuxI (cs.length + 1) cs ⟨0, 1, 0⟩ []

/-- True 1-based line number of the character at a given offset of the
normalized source: one more than the newlines strictly before it. -/
def trueLine (code : List Char) (off : Nat) : Nat :=
  1 + (code.take off).count '\n'

/-- Ordering between offset-instrumented tokens: strictly increasing source
offsets and lexicographically non-decreasing (line, column). -/
def tokenOrder (a b : Nat × Token) : Prop :=
  a.1 < b.1 ∧
  (a.2.lineno < b.2.lineno ∨
    (a.2.lineno = b.2.lineno ∧ a.2.columnno ≤ b.2.columnno))

/-- No pattern of the elif chain of src/src/tokenize.py matches at the start
of the given subcode: every matcher fails, the subcode does not open a block
comment, and it does not start with a newline. This is the exact guard of the
raise branch. -/
def noPattern (cs : List Char) : Prop :=
  matchPP cs = none ∧ matchVD cs = none ∧ matchLC cs = none ∧
  cs.take 2 ≠ ['/', '*'] ∧ cs.head? ≠ some '\n' ∧ matchWS cs = none ∧
  matchIdent cs = none ∧ matchNum cs = none ∧ matchStr cs = none ∧
  matchMark3 cs = none ∧ matchMark2 cs = none ∧ matchMark1 cs = none

namespace Main

/-- Ordered alternation of main.py's single mark regex (line 101):
\+\+|--|[-+*/%&|^=!<>]=|&&|(?:\|\|)|(<<|>>)=?|->\*?|\.\*|::\*? with the
greedy optional =/* suffixes of the last alternatives. -/
def mainMark : List Char → Option (List Char)
  | a :: b :: rest =>
    if a = '+' ∧ b = '+' then some [a, b]
    else if a = '-' ∧ b = '-' then some [a, b]
    else if a ∈ ['-', '+', '*', '/', '%', '&', '|', '^', '=', '!', '<', '>'] ∧
        b = '=' then some [a, b]
    else if a = '&' ∧ b = '&' then some [a, b]
    else if a = '|' ∧ b = '|' then some [a, b]
    else if (a = '<' ∧ b = '<') ∨ (a = '>' ∧ b = '>') then
      match rest with
      | '=' :: _ => some [a, b, '=']
      | _ => some [a, b]
    else if a = '-' ∧ b = '>' then
      match rest with
      | '*' :: _ => some [a, b, '*']
      | _ => some [a, b]
    else if a = '.' ∧ b = '*' then some [a, b]
    else if a = ':' ∧ b = ':' then
      match rest with
      | '*' :: _ => some [a, b, '*']
      | _ => some [a, b]
    else none
  | _ => none

/-- The elif chain of main.py lines 62-107: like the lexer module but with no
block-comment branch, a single mark regex, and a fallback that turns any
unknown character into a one-character mark token instead of raising. -/
def recognizeMain (sub : List Char) : ScanHit :=
  match matchPP sub with
  | some m => .tok "pp" m.asString m.length
  | none =>
  match matchVD sub with
  | some b => .tok "vd" b.asString (b.length + 3)
  | none =>
  match matchLC sub with
  | some n => .skip n
  | none =>
  if sub.head? = some '\n' then .newline
  else
  match matchWS sub with
  | some w => .skip w.length
  | none =>
  match matchIdent sub with
  | some m => .tok "id" m.asString m.length
  | none =>
  match matchNum sub with
  | some m => .tok "num" m.asString m.length
  | none =>
  match matchStr sub with
  | some m => .tok "str" m.asString m.length
  | none =>
  match mainMark sub with
  | some m => .tok "mark" m.asString m.length
  | none =>
  match sub with
  | c :: _ => .tok "mark" (String.mk [c]) 1
  | [] => .skip 0

/-- The while loop of main.py lines 57-110 (fuel-indexed; never errors since
the fallback token consumes the offending character). The none result is
exhausted fuel, which code.length + 1 fuel rules out. -/
def tokenizeAux : Nat → List Char → ScanState → List Token → Option (List Token)
  | 0, _, _, _ => none
  | fuel + 1, code, s, acc =>
    if s.i < code.length then
      match recognizeMain (code.drop s.i) with
      | .tok tag text len =>
        Main.tokenizeAux fuel code ⟨s.i + len, s.lineno, s.linestart⟩
          (acc ++ [⟨tag, text, s.lineno, s.i - s.linestart + 1⟩])
      | .skip len => Main.tokenizeAux fuel code ⟨s.i + len, s.lineno, s.linestart⟩ acc
      | .newline => Main.tokenizeAux fuel code ⟨s.i + 1, s.lineno + 1, s.i + 1⟩ acc
      | _ => none
    else some acc

/-- tokenize of main.py (the driver's inline lexer). -/
def tokenize (code : String) : Option (List Token) :=
  let cs := pyNormalize code
  Main.tokenizeAux (cs.length + 1) cs ⟨0, 1, 0⟩ []

end Main

/-- Character class of Python's regex \s (ASCII reading), used by the
directive-splitting regexes of validate_tokens. -/
def isPySpace (c : Char) : Bool :=
  c ∈ [' ', '\t', '\n', '\r', '\x0b', '\x0c']

/-- Splits off everything before the first comma: returns none when the list
has no comma, else (characters before it, characters after it). -/
def breakAtComma : List Char → Option (List Char × List Char)
  | [] => none
  | c :: rest =>
    if c = ',' then some ([], rest)
    else (breakAtComma rest).map (fun p => (c :: p.1, p.2))

/-- Splits off everything before the first \s character: returns none when the
list has no whitespace, else (characters before it, the rest starting with it). -/
def breakAtWs : List Char → Option (List Char × List Char)
  | [] => none
  | c :: rest =>
    if isPySpace c then some ([], c :: rest)
    else (breakAtWs rest).map (fun p => (c :: p.1, p.2))

/-- Removes the maximal whitespace run at the end of the list. -/
def dropTrailingWs (cs : List Char) : List Char :=
  (cs.reverse.dropWhile isPySpace).reverse

/-- re.split(r'\s+', s, 1): one element when s has no whitespace, else the part
before the first (maximal, greedy) whitespace run and the part after it. -/
def splitFirstWs (cs : List Char) : List (List Char) :=
  match breakAtWs cs with
  | none => [cs]
  | some (before, w) => [before, w.dropWhile isPySpace]

/-- re.split(r'\s*,\s*', s): leftmost matches of the separator regex are the
maximal whitespace run adjacent to each comma on either side, so each field is
the text between commas with comma-adjacent whitespace trimmed; the recursion
is fuel-indexed (one unit per comma, so length + 1 always suffices — see
splitCommaWsAux_fuel). -/
def splitCommaWsAux : Nat → List Char → List (List Char)
  | 0, cs => [cs]
  | fuel + 1, cs =>
    match breakAtComma cs with
    | none => [cs]
    | some (before, after) =>
      dropTrailingWs before :: splitCommaWsAux fuel (after.dropWhile isPySpace)

/-- re.split(r'\s*,\s*', s) with sufficient fuel. -/
def splitCommaWs (cs : List Char) : List (List Char) :=
  splitCommaWsAux (cs.length + 1) cs

/-- ValidateRule of main.py line 115 (scope_level, tag, str, get_message). -/
structure ValidateRule where
  scope_level : Int
  tag : String
  str : String
  get_message : Token → String

/-- unused_message of main.py lines 118-119. -/
def unused_message (token : Token) : String :=
  "Variable '" ++ token.str ++ "' cannot be used."

/-- ValidateError of main.py line 122 (message, token). -/
structure ValidateError where
  message : String
  token : Token
deriving DecidableEq

/-- The rule computed by the directive branch of validate_tokens (main.py lines
140-149): args is the comma split of the text after the command name, and the
Python for loop rebinds the one rule variable once per argument, so only the
final argument's rule survives to the append after the loop; an unrecognized
command name leaves it None. -/
def vdRule (scope_level : Int) (name argstr : List Char) : Option ValidateRule :=
  if name = "unused".toList then
    (splitCommaWs argstr).foldl
      (fun _ arg => some ⟨scope_level, "id", arg.asString, unused_message⟩) none
  else none

/-- The errors appended for one non-brace, non-directive token (main.py lines
151-155): one per active rule whose tag and text both equal the token's, in
the rule list's order. -/
def matchErrors (rules : List ValidateRule) (token : Token) : List ValidateError :=
  (rules.filter (fun r => token.tag == r.tag && token.str == r.str)).map
    (fun r => ⟨r.get_message token, token⟩)

/-- The loop of validate_tokens (main.py lines 125-157) with its running state:
remaining tokens, scope_level, rules, and the errors accumulated so far.
The directive branch performs name, args = re.split(r'\s+', token.str, 1):
per splitFirstWs, the split is [name, rest of the whitespace run dropped] when
the body contains whitespace (breakAtWs succeeds) and the one-element [body]
otherwise, in which case the two-element unpacking raises ValueError — the
none result here. -/
def validateAux : List Token → Int → List ValidateRule → List ValidateError →
    Option (List ValidateError)
  | [], _, _, errors => some errors
  | token :: ts, scope_level, rules, errors =>
    if token.str = "\x7b" then
      validateAux ts (scope_level + 1) rules errors
    else if token.str = "\x7d" then
      validateAux ts (scope_level - 1)
        (rules.filter (fun r => decide (r.scope_level ≤ scope_level - 1))) errors
    else if token.tag = "vd" then
      match breakAtWs token.str.toList with
      | none => none
      | some (name, w) =>
        match vdRule scope_level name (w.dropWhile isPySpace) with
        | some r => validateAux ts scope_level (rules ++ [r]) errors
        | none => validateAux ts scope_level rules errors
    else
      validateAux ts scope_level rules (errors ++ matchErrors rules token)

/-- validate_tokens of main.py: scope_level starts at 0, no rules, no errors. -/
def validate_tokens (tokens : List Token) : Option (List ValidateError) :=
  validateAux tokens 0 [] []

/-! Supporting lemmas about the split helpers. -/

theorem length_dropWhile_le (p : Char → Bool) (l : List Char) :
    (l.dropWhile p).length ≤ l.length := by
  induction l with
  | nil => simp
  | cons c rest ih =>
    by_cases h : p c
    · simp [List.dropWhile_cons, h]
      omega
    · simp [List.dropWhile_cons, h]

theorem breakAtComma_length_lt {cs before after : List Char}
    (h : breakAtComma cs = some (before, after)) : after.length < cs.length := by
  induction cs generalizing before after with
  | nil => simp [breakAtComma] at h
  | cons c rest ih =>
    by_cases hc : c = ','
    · simp [breakAtComma, hc] at h
      simp [← h.2]
    · simp only [breakAtComma, if_neg hc] at h
      match hb : breakAtComma rest with
      | none => rw [hb] at h; simp at h
      | some (b', a') =>
        rw [hb] at h
        simp at h
        have := ih hb
        simp [← h.2]
        omega

/-- Any fuel beyond the list length gives the same split, so splitCommaWs is
the fixpoint the regex split denotes. -/
theorem splitCommaWsAux_fuel {fuel fuel' : Nat} (cs : List Char)
    (h : cs.length < fuel) (h' : cs.length < fuel') :
    splitCommaWsAux fuel cs = splitCommaWsAux fuel' cs := by
  induction fuel generalizing fuel' cs with
  | zero => omega
  | succ n ih =>
    match fuel', h' with
    | m + 1, h' =>
      cases hb : breakAtComma cs with
      | none => simp only [splitCommaWsAux, hb]
      | some p =>
        obtain ⟨before, after⟩ := p
        have hlt := breakAtComma_length_lt hb
        have hle := length_dropWhile_le isPySpace after
        simp only [splitCommaWsAux, hb]
        rw [@ih m _ (by omega) (by omega)]

/-! Step equations for the validator loop, one per branch of the elif chain of
validate_tokens, and the accumulator law showing errors are appended in token
order. -/

theorem validateAux_open {t : Token} (h : t.str = "\x7b") (ts : List Token)
    (lvl : Int) (rules : List ValidateRule) (errs : List ValidateError) :
    validateAux (t :: ts) lvl rules errs = validateAux ts (lvl + 1) rules errs := by
  simp [validateAux, h]

theorem validateAux_close {t : Token} (h : t.str = "\x7d") (ts : List Token)
    (lvl : Int) (rules : List ValidateRule) (errs : List ValidateError) :
    validateAux (t :: ts) lvl rules errs =
      validateAux ts (lvl - 1)
        (rules.filter (fun r => decide (r.scope_level ≤ lvl - 1))) errs := by
  have h1 : ¬ t.str = "\x7b" := by rw [h]; decide
  simp [validateAux, h, h1]

theorem validateAux_vd {t : Token} (hb : t.str ≠ "\x7b") (hc : t.str ≠ "\x7d")
    (h : t.tag = "vd") (ts : List Token) (lvl : Int) (rules : List ValidateRule)
    (errs : List ValidateError) :
    validateAux (t :: ts) lvl rules errs =
      (match breakAtWs t.str.toList with
       | none => none
       | some (name, w) =>
         match vdRule lvl name (w.dropWhile isPySpace) with
         | some r => validateAux ts lvl (rules ++ [r]) errs
         | none => validateAux ts lvl rules errs) := by
  simp [validateAux, hb, hc, h]

theorem validateAux_other {t : Token} (hb : t.str ≠ "\x7b") (hc : t.str ≠ "\x7d")
    (ht : t.tag ≠ "vd") (ts : List Token) (lvl : Int) (rules : List ValidateRule)
    (errs : List ValidateError) :
    validateAux (t :: ts) lvl rules errs =
      validateAux ts lvl rules (errs ++ matchErrors rules t) := by
  simp [validateAux, hb, hc, ht]

theorem validateAux_append (ts : List Token) (lvl : Int) (rules : List ValidateRule)
    (errs : List ValidateError) :
    validateAux ts lvl rules errs =
      (validateAux ts lvl rules []).map (fun es => errs ++ es) := by
  induction ts generalizing lvl rules errs with
  | nil => simp [validateAux]
  | cons t ts ih =>
    by_cases h1 : t.str = "\x7b"
    · simp only [validateAux_open h1]
      exact ih _ _ _
    · by_cases h2 : t.str = "\x7d"
      · simp only [validateAux_close h2]
        exact ih _ _ _
      · by_cases h3 : t.tag = "vd"
        · simp only [validateAux_vd h1 h2 h3]
          cases hbw : breakAtWs t.str.toList with
          | none => simp
          | some p =>
            obtain ⟨name, w⟩ := p
            dsimp only
            cases hvr : vdRule lvl name (w.dropWhile isPySpace) with
            | some r => exact ih _ _ _
            | none => exact ih _ _ _
        · simp only [validateAux_other h1 h2 h3]
          rw [ih lvl rules (errs ++ matchErrors rules t),
              ih lvl rules ([] ++ matchErrors rules t)]
          cases validateAux ts lvl rules [] with
          | none => simp
          | some es => simp

theorem validateAux_errs_mem {ts : List Token} {lvl : Int}
    {rules : List ValidateRule} {errs res : List ValidateError}
    (h : validateAux ts lvl rules errs = some res) {e : ValidateError}
    (he : e ∈ errs) : e ∈ res := by
  rw [validateAux_append] at h
  cases hv : validateAux ts lvl rules [] with
  | none => rw [hv] at h; simp at h
  | some es =>
    rw [hv] at h
    simp at h
    rw [← h]
    exact List.mem_append_left _ he

theorem validateAux_isSome (ts : List Token) (lvl : Int)
    (rules : List ValidateRule) (errs : List ValidateError)
    (hvd : ∀ t ∈ ts, t.tag = "vd" → (breakAtWs t.str.toList).isSome) :
    (validateAux ts lvl rules errs).isSome := by
  induction ts generalizing lvl rules errs with
  | nil => simp [validateAux]
  | cons t ts ih =>
    have hts : ∀ u ∈ ts, u.tag = "vd" → (breakAtWs u.str.toList).isSome :=
      fun u hu => hvd u (List.mem_cons_of_mem _ hu)
    by_cases h1 : t.str = "\x7b"
    · rw [validateAux_open h1]
      exact ih _ _ _ hts
    · by_cases h2 : t.str = "\x7d"
      · rw [validateAux_close h2]
        exact ih _ _ _ hts
      · by_cases h3 : t.tag = "vd"
        · rw [validateAux_vd h1 h2 h3]
          have hw := hvd t (List.mem_cons_self _ _) h3
          cases hbw : breakAtWs t.str.toList with
          | none => rw [hbw] at hw; simp at hw
          | some p =>
            obtain ⟨before, w⟩ := p
            dsimp only
            cases hvr : vdRule lvl before (w.dropWhile isPySpace) with
            | some r => exact ih _ _ _ hts
            | none => exact ih _ _ _ hts
        · rw [validateAux_other h1 h2 h3]
          exact ih _ _ _ hts

/-- A rule present in the active list survives every later token as long as no
closing brace occurs, and fires on each matching identifier token scanned. -/
theorem validateAux_rule_survives (ts : List Token) :
    ∀ (lvl : Int) (rules : List ValidateRule) (errs res : List ValidateError)
      (r : ValidateRule) (t : Token),
    validateAux ts lvl rules errs = some res →
    (∀ u ∈ ts, u.str ≠ "\x7d") →
    r ∈ rules → t ∈ ts →
    t.str ≠ "\x7b" → t.tag ≠ "vd" → t.tag = r.tag → t.str = r.str →
    ValidateError.mk (r.get_message t) t ∈ res := by
  induction ts with
  | nil =>
    intro _ _ _ _ _ _ _ _ _ ht _ _ _ _
    simp at ht
  | cons u ts ih =>
    intro lvl rules errs res r t hval hnc hr ht hb hv htag hstr
    have hnc' : ∀ v ∈ ts, v.str ≠ "\x7d" :=
      fun v hvmem => hnc v (List.mem_cons_of_mem _ hvmem)
    rcases List.mem_cons.mp ht with rfl | hts
    · rw [validateAux_other hb (hnc t (List.mem_cons_self _ _)) hv] at hval
      have hmem : ValidateError.mk (r.get_message t) t ∈ errs ++ matchErrors rules t := by
        apply List.mem_append_right
        simp only [matchErrors, List.mem_map]
        refine ⟨r, ?_, rfl⟩
        simp [List.mem_filter, hr, htag, hstr]
      exact validateAux_errs_mem hval hmem
    · by_cases h1 : u.str = "\x7b"
      · rw [validateAux_open h1] at hval
        exact ih _ _ _ _ _ _ hval hnc' hr hts hb hv htag hstr
      · have h2 : u.str ≠ "\x7d" := hnc u (List.mem_cons_self _ _)
        by_cases h3 : u.tag = "vd"
        · rw [validateAux_vd h1 h2 h3] at hval
          cases hbw : breakAtWs u.str.toList with
          | none => rw [hbw] at hval; simp at hval
          | some p =>
            obtain ⟨name, w⟩ := p
            rw [hbw] at hval
            dsimp only at hval
            cases hvr : vdRule lvl name (w.dropWhile isPySpace) with
            | some r' =>
              rw [hvr] at hval
              exact ih _ _ _ _ _ _ hval hnc'
                (List.mem_append_left _ hr) hts hb hv htag hstr
            | none =>
              rw [hvr] at hval
              exact ih _ _ _ _ _ _ hval hnc' hr hts hb hv htag hstr
        · rw [validateAux_other h1 h2 h3] at hval
          exact ih _ _ _ _ _ _ hval hnc' hr hts hb hv htag hstr

/-! Claim theorems about the validator. -/

/-- Claim C1 (code bug): contrary to the claim, a single directive token
unused a, b creates only ONE rule. The Python loop
for arg in args: rule = ValidateRule(...) rebinds the single rule variable and
rules.append(rule) sits after the loop, so only the last argument's rule is
appended: the directive flags only b, while two separate one-argument
directives flag both a and b. -/
theorem c1_unused_one_rule_per_argument_bug :
    tokenize "//!unused a, b" = .tokens [⟨"vd", "unused a, b", 1, 1⟩] ∧
    validate_tokens [⟨"vd", "unused a, b", 1, 1⟩, ⟨"id", "a", 2, 1⟩, ⟨"id", "b", 3, 1⟩] =
      some [⟨"Variable 'b' cannot be used.", ⟨"id", "b", 3, 1⟩⟩] ∧
    validate_tokens [⟨"vd", "unused a", 1, 1⟩, ⟨"vd", "unused b", 1, 1⟩,
        ⟨"id", "a", 2, 1⟩, ⟨"id", "b", 3, 1⟩] =
      some [⟨"Variable 'a' cannot be used.", ⟨"id", "a", 2, 1⟩⟩,
            ⟨"Variable 'b' cannot be used.", ⟨"id", "b", 3, 1⟩⟩] :=
  ⟨by decide, by decide, by decide⟩

/-- Claim C2 counterexample: validate is NOT total. A directive token whose
body has no whitespace — produced for instance by tokenizing the source line
with the three-slash marker and the bare word unused — makes the two-element
unpacking of re.split raise ValueError, modeled here as the none result. -/
theorem c2_counterexample_unsplittable_directive :
    tokenize "//!unused" = .tokens [⟨"vd", "unused", 1, 1⟩] ∧
    ¬ ∃ errs, validate_tokens [⟨"vd", "unused", 1, 1⟩] = some errs := by
  refine ⟨by decide, ?_⟩
  rintro ⟨errs, h⟩
  have hn : validate_tokens [⟨"vd", "unused", 1, 1⟩] = none := by decide
  rw [hn] at h
  exact Option.noConfusion h

/-- Claim C2 (amended): validate returns an error list for every token
sequence all of whose directive-tagged tokens have a whitespace character in
their body (so the name/args split unpacks) — in particular for sequences with
unbalanced braces, where the depth counter goes negative without any special
casing, and for directives with unrecognized command names, which are silently
ignored; a directive body with no whitespace instead fails (Python ValueError).
The second conjunct runs the loop over a closing brace at depth 0 and an
unknown command, producing zero errors. -/
theorem c2_validate_total_on_splittable_directives :
    (∀ tokens : List Token,
      (∀ t ∈ tokens, t.tag = "vd" → (breakAtWs t.str.toList).isSome) →
      ∃ errs, validate_tokens tokens = some errs) ∧
    validate_tokens [⟨"mark", "\x7d", 1, 1⟩, ⟨"vd", "foo x", 2, 1⟩, ⟨"id", "x", 3, 1⟩] =
      some [] := by
  refine ⟨?_, by decide⟩
  intro tokens h
  exact Option.isSome_iff_exists.mp (validateAux_isSome tokens 0 [] [] h)

theorem c2_validate_total_witness :
    ∃ errs, validate_tokens
      [⟨"mark", "\x7d", 1, 1⟩, ⟨"vd", "unused x", 2, 1⟩, ⟨"id", "x", 3, 1⟩] =
      some errs :=
  c2_validate_total_on_splittable_directives.1 _ (by decide)

/-- Claim C4: a rule stays active for every token scanned after its
declaration while no closing brace occurs (first conjunct: it still fires on
every matching token, including at its own depth and inside deeper braces,
since an opening brace leaves the rule list unchanged), it is removed exactly
by the closing-brace step, which decrements the depth and then retains only
rules with scope_level at most the new depth (second conjunct), and the spec's
scenario — brace, directive, closing brace, then the identifier — yields zero
errors end to end through main.py's tokenizer (third conjunct). -/
theorem c4_scope_lifetime :
    (∀ (ts : List Token) (lvl : Int) (rules : List ValidateRule)
        (errs res : List ValidateError) (r : ValidateRule) (t : Token),
      validateAux ts lvl rules errs = some res →
      (∀ u ∈ ts, u.str ≠ "\x7d") →
      r ∈ rules → t ∈ ts →
      t.str ≠ "\x7b" → t.tag ≠ "vd" → t.tag = r.tag → t.str = r.str →
      ValidateError.mk (r.get_message t) t ∈ res) ∧
    (∀ (t : Token) (ts : List Token) (lvl : Int) (rules : List ValidateRule)
        (errs : List ValidateError), t.str = "\x7d" →
      validateAux (t :: ts) lvl rules errs =
        validateAux ts (lvl - 1)
          (rules.filter (fun r => decide (r.scope_level ≤ lvl - 1))) errs) ∧
    (Main.tokenize "\x7b\n//!unused y\n\x7d\ny;\n").bind validate_tokens = some [] :=
  ⟨fun ts lvl rules errs res r t hval hnc hr ht hb hv htag hstr =>
      validateAux_rule_survives ts lvl rules errs res r t hval hnc hr ht hb hv htag hstr,
   fun t ts lvl rules errs h => validateAux_close h ts lvl rules errs,
   by decide⟩

theorem c4_scope_lifetime_witness :
    ValidateError.mk
        ((⟨0, "id", "y", unused_message⟩ : ValidateRule).get_message ⟨"id", "y", 2, 1⟩)
        ⟨"id", "y", 2, 1⟩ ∈
      [ValidateError.mk (unused_message ⟨"id", "y", 2, 1⟩) ⟨"id", "y", 2, 1⟩] :=
  c4_scope_lifetime.1 [⟨"id", "y", 2, 1⟩] 0 [⟨0, "id", "y", unused_message⟩] [] _
    ⟨0, "id", "y", unused_message⟩ ⟨"id", "y", 2, 1⟩ rfl
    (by decide) (List.mem_cons_self _ _) (List.mem_cons_self _ _)
    (by decide) (by decide) rfl rfl

/-- Claim C5: on a non-brace, non-directive token the loop appends exactly
matchErrors — one error per matching active rule, in the rule list's
(declaration) order (first conjunct); matchErrors preserves that order under
concatenation of rule lists (second conjunct); the accumulator law shows
errors are appended in token order with no re-ordering (third conjunct); a
token matched by two rules declared at different depths yields both errors,
not de-duplicated (fourth conjunct), and errors across tokens follow token
order (fifth conjunct). -/
theorem c5_multi_rule_firing_order :
    (∀ (t : Token) (ts : List Token) (lvl : Int) (rules : List ValidateRule)
        (errs : List ValidateError),
      t.str ≠ "\x7b" → t.str ≠ "\x7d" → t.tag ≠ "vd" →
      validateAux (t :: ts) lvl rules errs =
        validateAux ts lvl rules (errs ++ matchErrors rules t)) ∧
    (∀ (rs1 rs2 : List ValidateRule) (t : Token),
      matchErrors (rs1 ++ rs2) t = matchErrors rs1 t ++ matchErrors rs2 t) ∧
    (∀ (ts : List Token) (lvl : Int) (rules : List ValidateRule)
        (errs : List ValidateError),
      validateAux ts lvl rules errs =
        (validateAux ts lvl rules []).map (fun es => errs ++ es)) ∧
    validate_tokens [⟨"vd", "unused x", 1, 1⟩, ⟨"mark", "\x7b", 2, 1⟩,
        ⟨"vd", "unused x", 3, 1⟩, ⟨"id", "x", 4, 3⟩] =
      some [⟨"Variable 'x' cannot be used.", ⟨"id", "x", 4, 3⟩⟩,
            ⟨"Variable 'x' cannot be used.", ⟨"id", "x", 4, 3⟩⟩] ∧
    validate_tokens [⟨"vd", "unused x", 1, 1⟩, ⟨"vd", "unused y", 2, 1⟩,
        ⟨"id", "y", 3, 1⟩, ⟨"id", "x", 4, 1⟩] =
      some [⟨"Variable 'y' cannot be used.", ⟨"id", "y", 3, 1⟩⟩,
            ⟨"Variable 'x' cannot be used.", ⟨"id", "x", 4, 1⟩⟩] :=
  ⟨fun t ts lvl rules errs hb hc ht => validateAux_other hb hc ht ts lvl rules errs,
   fun rs1 rs2 t => by simp [matchErrors, List.filter_append],
   validateAux_append,
   by decide, by decide⟩

theorem c5_multi_rule_firing_order_witness :
    validateAux [⟨"id", "x", 1, 1⟩] 0 [] [] =
      validateAux [] 0 [] ([] ++ matchErrors [] ⟨"id", "x", 1, 1⟩) :=
  c5_multi_rule_firing_order.1 ⟨"id", "x", 1, 1⟩ [] 0 [] []
    (by decide) (by decide) (by decide)

/-! Lemmas about the lexer: every fired pattern consumes at least one
character, and the scan state advances monotonically. -/

theorem matchPP_pos {cs m : List Char} (h : matchPP cs = some m) : 1 ≤ m.length := by
  cases cs with
  | nil => simp [matchPP] at h
  | cons c rest =>
    simp only [matchPP] at h
    split at h
    · split at h
      · exact absurd h (by simp)
      · injection h with h'
        rw [← h']
        simp
    · exact absurd h (by simp)

theorem matchLC_pos {cs : List Char} {n : Nat} (h : matchLC cs = some n) : 1 ≤ n := by
  match cs with
  | [] => simp [matchLC] at h
  | [a] => simp [matchLC] at h
  | a :: b :: rest =>
    simp only [matchLC] at h
    split at h
    · split at h
      · exact absurd h (by simp)
      · injection h with h'
        omega
    · exact absurd h (by simp)

theorem matchWS_pos {cs m : List Char} (h : matchWS cs = some m) : 1 ≤ m.length := by
  unfold matchWS at h
  split at h
  · exact absurd h (by simp)
  · injection h with h'
    rename_i hw
    have hne : cs.takeWhile (fun c => c = ' ' ∨ c = '\t') ≠ [] := by
      intro he
      rw [he] at hw
      exact hw rfl
    rw [← h']
    exact List.length_pos.mpr hne

theorem matchIdent_pos {cs m : List Char} (h : matchIdent cs = some m) :
    1 ≤ m.length := by
  cases cs with
  | nil => simp [matchIdent] at h
  | cons c rest =>
    by_cases hc : isIdentStart c
    · simp [matchIdent, hc] at h
      simp [← h]
    · simp [matchIdent, hc] at h

theorem matchNum_pos {cs m : List Char} (h : matchNum cs = some m) : 1 ≤ m.length := by
  cases cs with
  | nil => simp [matchNum] at h
  | cons c rest =>
    by_cases hc : c.isDigit
    · simp [matchNum, hc] at h
      simp [← h]
    · simp [matchNum, hc] at h

theorem matchStr_pos {cs m : List Char} (h : matchStr cs = some m) : 1 ≤ m.length := by
  cases cs with
  | nil => simp [matchStr] at h
  | cons c rest =>
    by_cases hc : c = '"'
    · simp [matchStr, hc] at h
      obtain ⟨t, _, ht⟩ := h
      simp [← ht]
    · simp [matchStr, hc] at h

theorem matchMark3_pos {cs m : List Char} (h : matchMark3 cs = some m) :
    1 ≤ m.length := by
  match cs with
  | [] => simp [matchMark3] at h
  | [a] => simp [matchMark3] at h
  | [a, b] => simp [matchMark3] at h
  | a :: b :: c :: rest =>
    by_cases hc : (a = '-' ∧ b = '>' ∧ c = '*') ∨ (a = '<' ∧ b = '<' ∧ c = '=') ∨
        (a = '>' ∧ b = '>' ∧ c = '=')
    · simp [matchMark3, hc] at h
      simp [← h]
    · simp [matchMark3, hc] at h

theorem matchMark2_pos {cs m : List Char} (h : matchMark2 cs = some m) :
    1 ≤ m.length := by
  match cs with
  | [] => simp [matchMark2] at h
  | [a] => simp [matchMark2] at h
  | a :: b :: rest =>
    by_cases hc : (a, b) ∈ twoCharMarks
    · simp [matchMark2, hc] at h
      simp [← h]
    · simp [matchMark2, hc] at h

theorem matchMark1_pos {cs m : List Char} (h : matchMark1 cs = some m) :
    1 ≤ m.length := by
  cases cs with
  | nil => simp [matchMark1] at h
  | cons c rest =>
    by_cases hc : c ∈ singleMarks
    · simp [matchMark1, hc] at h
      simp [← h]
    · simp [matchMark1, hc] at h

/-- Every token-producing or skipping hit of the elif chain consumes at least
one character. -/
theorem recognize_len (c : Char) (rest : List Char) :
    match recognize (c :: rest) with
    | .tok _ _ n => 1 ≤ n
    | .skip n => 1 ≤ n
    | _ => True := by
  cases hpp : matchPP (c :: rest) with
  | some m =>
    simp only [recognize, hpp]
    exact matchPP_pos hpp
  | none =>
  cases hvd : matchVD (c :: rest) with
  | some b =>
    simp only [recognize, hpp, hvd]
    omega
  | none =>
  cases hlc : matchLC (c :: rest) with
  | some n =>
    simp only [recognize, hpp, hvd, hlc]
    exact matchLC_pos hlc
  | none =>
  by_cases hbc : (c :: rest).take 2 = ['/', '*']
  · simp only [recognize, hpp, hvd, hlc, if_pos hbc]
  · by_cases hnl : (c :: rest).head? = some '\n'
    · simp only [recognize, hpp, hvd, hlc, if_neg hbc, if_pos hnl]
    · cases hws : matchWS (c :: rest) with
      | some w =>
        simp only [recognize, hpp, hvd, hlc, if_neg hbc, if_neg hnl, hws]
        exact matchWS_pos hws
      | none =>
      cases hid : matchIdent (c :: rest) with
      | some m =>
        simp only [recognize, hpp, hvd, hlc, if_neg hbc, if_neg hnl, hws, hid]
        exact matchIdent_pos hid
      | none =>
      cases hnum : matchNum (c :: rest) with
      | some m =>
        simp only [recognize, hpp, hvd, hlc, if_neg hbc, if_neg hnl, hws, hid, hnum]
        exact matchNum_pos hnum
      | none =>
      cases hstr : matchStr (c :: rest) with
      | some m =>
        simp only [recognize, hpp, hvd, hlc, if_neg hbc, if_neg hnl, hws, hid, hnum,
          hstr]
        exact matchStr_pos hstr
      | none =>
      cases hm3 : matchMark3 (c :: rest) with
      | some m =>
        simp only [recognize, hpp, hvd, hlc, if_neg hbc, if_neg hnl, hws, hid, hnum,
          hstr, hm3]
        exact matchMark3_pos hm3
      | none =>
      cases hm2 : matchMark2 (c :: rest) with
      | some m =>
        simp only [recognize, hpp, hvd, hlc, if_neg hbc, if_neg hnl, hws, hid, hnum,
          hstr, hm3, hm2]
        exact matchMark2_pos hm2
      | none =>
      cases hm1 : matchMark1 (c :: rest) with
      | some m =>
        simp only [recognize, hpp, hvd, hlc, if_neg hbc, if_neg hnl, hws, hid, hnum,
          hstr, hm3, hm2, hm1]
        exact matchMark1_pos hm1
      | none =>
        simp only [recognize, hpp, hvd, hlc, if_neg hbc, if_neg hnl, hws, hid, hnum,
          hstr, hm3, hm2, hm1]

/-- The block-comment loop never moves the cursor backwards, never decreases
the line counter, and only changes linestart together with the line counter. -/
theorem skipBC_mono (rs : List Char) :
    ∀ (i lineno linestart : Nat),
    i ≤ (skipBC rs i lineno linestart).1 ∧
    lineno ≤ (skipBC rs i lineno linestart).2.1 ∧
    ((skipBC rs i lineno linestart).2.1 = lineno →
      (skipBC rs i lineno linestart).2.2 = linestart) := by
  induction rs with
  | nil =>
    intro i l ls
    simp [skipBC]
  | cons c rs ih =>
    intro i l ls
    by_cases h1 : c = '*' ∧ rs.head? = some '/'
    · simp [skipBC, h1]
    · by_cases h2 : c = '\n'
      · simp only [skipBC, if_neg h1, if_pos h2]
        obtain ⟨ha, hb, hc⟩ := ih (i + 1) (l + 1) (i + 1)
        refine ⟨by omega, by omega, ?_⟩
        intro heq
        omega
      · simp only [skipBC, if_neg h1, if_neg h2]
        obtain ⟨ha, hb, hc⟩ := ih (i + 1) l ls
        exact ⟨by omega, hb, hc⟩

/-- One successful scan step strictly advances the cursor, never decreases the
line counter, and changes linestart only together with the line counter. -/
theorem scanStep_mono {code : List Char} {s s' : ScanState} {t? : Option Token}
    (hlt : s.i < code.length)
    (h : scanStep code s = .ok (t?, s')) :
    s.i < s'.i ∧ s.lineno ≤ s'.lineno ∧
      (s'.lineno = s.lineno → s'.linestart = s.linestart) := by
  obtain ⟨c, rest, hcr⟩ : ∃ c rest, code.drop s.i = c :: rest := by
    cases hd : code.drop s.i with
    | nil =>
      have : code.length ≤ s.i := by
        have := congrArg List.length hd
        simp at this
        omega
      omega
    | cons c rest => exact ⟨c, rest, rfl⟩
  have hlen := recognize_len c rest
  unfold scanStep at h
  rw [hcr] at h
  cases hrec : recognize (c :: rest) with
  | tok tag text n =>
    rw [hrec] at h
    rw [hrec] at hlen
    have hn : 1 ≤ n := hlen
    simp only [applyHit, Except.ok.injEq, Prod.mk.injEq] at h
    obtain ⟨_, hs⟩ := h
    subst hs
    dsimp only
    exact ⟨by omega, le_refl _, fun _ => rfl⟩
  | skip n =>
    rw [hrec] at h
    rw [hrec] at hlen
    have hn : 1 ≤ n := hlen
    simp only [applyHit, Except.ok.injEq, Prod.mk.injEq] at h
    obtain ⟨_, hs⟩ := h
    subst hs
    dsimp only
    exact ⟨by omega, le_refl _, fun _ => rfl⟩
  | newline =>
    rw [hrec] at h
    simp only [applyHit, Except.ok.injEq, Prod.mk.injEq] at h
    obtain ⟨_, hs⟩ := h
    subst hs
    dsimp only
    exact ⟨by omega, by omega, by intro hq; omega⟩
  | blockComment =>
    rw [hrec] at h
    simp only [applyHit, Except.ok.injEq, Prod.mk.injEq] at h
    obtain ⟨_, hs⟩ := h
    obtain ⟨ha, hb, hc⟩ :=
      skipBC_mono ((code.drop s.i).drop 2) (s.i + 2) s.lineno s.linestart
    subst hs
    dsimp only
    exact ⟨by omega, hb, hc⟩
  | err e =>
    rw [hrec] at h
    simp [applyHit] at h

/-- With more fuel than remaining characters, the scan loop never runs out:
every iteration strictly advances the cursor (scanStep_mono), so the loop ends
by reaching the end of the input or a lex error. -/
theorem tokenizeAux_no_fuelOut (fuel : Nat) :
    ∀ (code : List Char) (s : ScanState) (acc : List Token),
    code.length - s.i < fuel →
    tokenizeAux fuel code s acc ≠ .fuelOut := by
  induction fuel with
  | zero =>
    intro code s acc h
    omega
  | succ n ih =>
    intro code s acc h
    simp only [tokenizeAux]
    split
    · rename_i hin
      cases hstep : scanStep code s with
      | error e => simp
      | ok p =>
        obtain ⟨t?, s'⟩ := p
        have hm := scanStep_mono hin hstep
        exact ih code s' _ (by omega)
    · simp

/-- The lexer's fuel, code length + 1, is always sufficient. -/
theorem tokenize_no_fuelOut (code : String) : tokenize code ≠ .fuelOut := by
  unfold tokenize
  exact tokenizeAux_no_fuelOut _ _ _ _ (by omega)

/-- The validator processes exactly one token per iteration: every step either
continues on the tail with updated state or fails on a malformed directive. -/
theorem validateAux_single_pass (t : Token) (ts : List Token) (lvl : Int)
    (rules : List ValidateRule) (errs : List ValidateError) :
    (∃ lvl' rules' errs',
      validateAux (t :: ts) lvl rules errs = validateAux ts lvl' rules' errs') ∨
    validateAux (t :: ts) lvl rules errs = none := by
  by_cases h1 : t.str = "\x7b"
  · exact Or.inl ⟨_, _, _, validateAux_open h1 ts lvl rules errs⟩
  · by_cases h2 : t.str = "\x7d"
    · exact Or.inl ⟨_, _, _, validateAux_close h2 ts lvl rules errs⟩
    · by_cases h3 : t.tag = "vd"
      · rw [validateAux_vd h1 h2 h3]
        cases hbw : breakAtWs t.str.toList with
        | none => exact Or.inr rfl
        | some p =>
          obtain ⟨name, w⟩ := p
          dsimp only
          cases hvr : vdRule lvl name (w.dropWhile isPySpace) with
          | some r => exact Or.inl ⟨_, _, _, rfl⟩
          | none => exact Or.inl ⟨_, _, _, rfl⟩
      · exact Or.inl ⟨_, _, _, validateAux_other h1 h2 h3 ts lvl rules errs⟩

/-! Claim theorems about the lexer. -/

/-- The raise branch is reached exactly when every pattern of the elif chain
fails at the current position. -/
theorem recognize_err_iff (c : Char) (rest : List Char) :
    recognize (c :: rest) = .err c ↔ noPattern (c :: rest) := by
  cases hpp : matchPP (c :: rest) with
  | some m => simp [recognize, noPattern, hpp]
  | none =>
  cases hvd : matchVD (c :: rest) with
  | some b => simp [recognize, noPattern, hpp, hvd]
  | none =>
  cases hlc : matchLC (c :: rest) with
  | some n => simp [recognize, noPattern, hpp, hvd, hlc]
  | none =>
  by_cases hbc : (c :: rest).take 2 = ['/', '*']
  · simp [recognize, noPattern, hpp, hvd, hlc, hbc]
  · have hbc' : ¬(c = '/' ∧ rest.take 1 = ['*']) := by simpa using hbc
    by_cases hnl : (c :: rest).head? = some '\n'
    · have hnl' : c = '\n' := by simpa using hnl
      subst hnl'
      simp [recognize, noPattern, hpp, hvd, hlc, hbc, hbc']
    · have hnl' : ¬(c = '\n') := by simpa using hnl
      cases hws : matchWS (c :: rest) with
      | some w => simp [recognize, noPattern, hpp, hvd, hlc, hbc, hbc', hnl, hnl', hws]
      | none =>
      cases hid : matchIdent (c :: rest) with
      | some m =>
        simp [recognize, noPattern, hpp, hvd, hlc, hbc, hbc', hnl, hnl', hws, hid]
      | none =>
      cases hnum : matchNum (c :: rest) with
      | some m =>
        simp [recognize, noPattern, hpp, hvd, hlc, hbc, hbc', hnl, hnl', hws, hid,
          hnum]
      | none =>
      cases hstr : matchStr (c :: rest) with
      | some m =>
        simp [recognize, noPattern, hpp, hvd, hlc, hbc, hbc', hnl, hnl', hws, hid,
          hnum, hstr]
      | none =>
      cases hm3 : matchMark3 (c :: rest) with
      | some m =>
        simp [recognize, noPattern, hpp, hvd, hlc, hbc, hbc', hnl, hnl', hws, hid,
          hnum, hstr, hm3]
      | none =>
      cases hm2 : matchMark2 (c :: rest) with
      | some m =>
        simp [recognize, noPattern, hpp, hvd, hlc, hbc, hbc', hnl, hnl', hws, hid,
          hnum, hstr, hm3, hm2]
      | none =>
      cases hm1 : matchMark1 (c :: rest) with
      | some m =>
        simp [recognize, noPattern, hpp, hvd, hlc, hbc, hbc', hnl, hnl', hws, hid,
          hnum, hstr, hm3, hm2, hm1]
      | none =>
        simp [recognize, noPattern, hpp, hvd, hlc, hbc, hbc', hnl, hnl', hws, hid,
          hnum, hstr, hm3, hm2, hm1]

/-- Claim C3: a scan step produces the lex error carrying the offending
character and its 1-based line and column exactly when no token pattern
matches at the current position (first conjunct, an equivalence with
noPattern, the conjunction of all matcher failures); in particular tokenizing
the one-character input with the at sign fails at line 1, column 1, returning
no tokens (second conjunct). -/
theorem c3_lex_error_iff_no_pattern :
    (∀ (code : List Char) (s : ScanState) (c : Char) (rest : List Char),
      code.drop s.i = c :: rest →
      (scanStep code s = .error ⟨c, s.lineno, s.i - s.linestart + 1⟩ ↔
        noPattern (c :: rest))) ∧
    tokenize "@" = .lexError ⟨'@', 1, 1⟩ := by
  constructor
  · intro code s c rest hcr
    constructor
    · intro h
      unfold scanStep at h
      rw [hcr] at h
      cases hrec : recognize (c :: rest) with
      | tok tag text n => rw [hrec] at h; simp [applyHit] at h
      | skip n => rw [hrec] at h; simp [applyHit] at h
      | newline => rw [hrec] at h; simp [applyHit] at h
      | blockComment => rw [hrec] at h; simp [applyHit] at h
      | err e =>
        rw [hrec] at h
        simp only [applyHit, Except.error.injEq, LexError.mk.injEq] at h
        obtain ⟨he, -, -⟩ := h
        exact (recognize_err_iff c rest).mp (by rw [hrec, he])
    · intro hnp
      have herr := (recognize_err_iff c rest).mpr hnp
      unfold scanStep
      rw [hcr, herr]
      rfl
  · decide

theorem c3_lex_error_iff_no_pattern_witness : noPattern ['@'] :=
  (c3_lex_error_iff_no_pattern.1 ['@'] ⟨0, 1, 0⟩ '@' [] rfl).mp (by rfl)

/-- Claim C6: three-character operators are tried before two-character and
one-character ones, so the lexer module reads the arrow-star input as exactly
identifier a, the single three-character operator token, and identifier b —
never a two-character arrow followed by a separate star; main.py's inline
lexer agrees via its greedy optional-star alternative. -/
theorem c6_longest_match_arrow_star :
    tokenize "a->*b" =
      .tokens [⟨"id", "a", 1, 1⟩, ⟨"mark", "->*", 1, 2⟩, ⟨"id", "b", 1, 5⟩] ∧
    Main.tokenize "a->*b" =
      some [⟨"id", "a", 1, 1⟩, ⟨"mark", "->*", 1, 2⟩, ⟨"id", "b", 1, 5⟩] :=
  ⟨by decide, by decide⟩

/-- Claim C7: a block comment produces no token (second conjunct: a closed
comment followed by an identifier yields only the identifier, with the line
and column advanced past the comment), and an unterminated block comment is
consumed to the end of input without error, yielding the empty token list
(first conjunct). -/
theorem c7_block_comment_no_token :
    tokenize "/* unterminated" = .tokens [] ∧
    tokenize "/* a */ x" = .tokens [⟨"id", "x", 1, 9⟩] :=
  ⟨by decide, by decide⟩

/-- Claim C9: both passes terminate. Every successful scan step strictly
advances the cursor (first conjunct), the block-comment inner loop never moves
it backwards and stops at end of input (second conjunct), hence the fuel
code.length + 1 given to the scan loop is never exhausted on any input (third
conjunct); the validator consumes exactly one token per iteration of its
single pass (fourth conjunct). -/
theorem c9_termination :
    (∀ (code : List Char) (s s' : ScanState) (t? : Option Token),
      s.i < code.length → scanStep code s = .ok (t?, s') → s.i < s'.i) ∧
    (∀ (rs : List Char) (i lineno linestart : Nat),
      i ≤ (skipBC rs i lineno linestart).1) ∧
    (∀ code : String, tokenize code ≠ .fuelOut) ∧
    (∀ (t : Token) (ts : List Token) (lvl : Int) (rules : List ValidateRule)
        (errs : List ValidateError),
      (∃ lvl' rules' errs',
        validateAux (t :: ts) lvl rules errs = validateAux ts lvl' rules' errs') ∨
      validateAux (t :: ts) lvl rules errs = none) :=
  ⟨fun _ _ _ _ hlt h => (scanStep_mono hlt h).1,
   fun rs i l ls => (skipBC_mono rs i l ls).1,
   tokenize_no_fuelOut,
   validateAux_single_pass⟩

theorem c9_termination_witness :
    (⟨0, 1, 0⟩ : ScanState).i < (⟨1, 1, 0⟩ : ScanState).i :=
  c9_termination.1 ['a'] ⟨0, 1, 0⟩ ⟨1, 1, 0⟩ (some ⟨"id", "a", 1, 1⟩)
    (by decide) (by rfl)

/-- Claim C10: the string-literal pattern accepts a raw newline between the
quotes: the two-line string input is lexed as a single str-tagged token whose
text contains the newline, the line counter is not advanced for it (the
following identifier token still reports line 1, column 7), and that reported
line understates the token's actual line, which is 2 by the newline count
before its offset. -/
theorem c10_multiline_string_literal :
    tokenizeI "\"a\nb\" c" =
      .tokens [(0, ⟨"str", "\"a\nb\"", 1, 1⟩), (6, ⟨"id", "c", 1, 7⟩)] ∧
    '\n' ∈ "\"a\nb\"".toList ∧
    trueLine (pyNormalize "\"a\nb\" c") 6 = 2 ∧
    (Token.mk "id" "c" 1 7).lineno < trueLine (pyNormalize "\"a\nb\" c") 6 :=
  ⟨by decide, by decide, by decide, by decide⟩

/-! Machinery for claim C8: erasing the offsets of the instrumented scan
recovers the plain one, and the instrumented output is ordered. -/

/-- A token is always emitted at the current line and column of the state. -/
theorem scanStep_token_pos {code : List Char} {s s' : ScanState} {t : Token}
    (h : scanStep code s = .ok (some t, s')) :
    t.lineno = s.lineno ∧ t.columnno = s.i - s.linestart + 1 := by
  unfold scanStep at h
  cases hrec : recognize (code.drop s.i) with
  | tok tag text n =>
    rw [hrec] at h
    simp only [applyHit, Except.ok.injEq, Prod.mk.injEq, Option.some.injEq] at h
    obtain ⟨ht, -⟩ := h
    rw [← ht]
    exact ⟨rfl, rfl⟩
  | skip n => rw [hrec] at h; simp [applyHit] at h
  | newline => rw [hrec] at h; simp [applyHit] at h
  | blockComment => rw [hrec] at h; simp [applyHit] at h
  | err e => rw [hrec] at h; simp [applyHit] at h

/-- A pair bounded by the current scan position stays bounded after any
monotone state step. -/
theorem lastBound_step {p : Nat × Token} {s s' : ScanState}
    (hp : p.1 ≤ s.i ∧
      (p.2.lineno < s.lineno ∨
        (p.2.lineno = s.lineno ∧ p.2.columnno ≤ s.i - s.linestart + 1)))
    (hm : s.i < s'.i ∧ s.lineno ≤ s'.lineno ∧
      (s'.lineno = s.lineno → s'.linestart = s.linestart)) :
    p.1 < s'.i ∧
      (p.2.lineno < s'.lineno ∨
        (p.2.lineno = s'.lineno ∧ p.2.columnno ≤ s'.i - s'.linestart + 1)) := by
  obtain ⟨hpi, hp2⟩ := hp
  obtain ⟨hmi, hml, hmls⟩ := hm
  refine ⟨by omega, ?_⟩
  rcases hp2 with hlt | ⟨heq, hcol⟩
  · left
    omega
  · by_cases hsl : s'.lineno = s.lineno
    · right
      have := hmls hsl
      constructor
      · omega
      · omega
    · left
      omega

/-- Forgetting the recorded offsets of the instrumented scan loop gives the
plain scan loop. -/
theorem tokenizeAuxI_tokens (fuel : Nat) :
    ∀ (code : List Char) (s : ScanState) (accI l : List (Nat × Token)),
    tokenizeAuxI fuel code s accI = .tokens l →
    tokenizeAux fuel code s (accI.map Prod.snd) = .tokens (l.map Prod.snd) := by
  induction fuel with
  | zero =>
    intro code s accI l h
    simp [tokenizeAuxI] at h
  | succ n ih =>
    intro code s accI l h
    by_cases hin : s.i < code.length
    · simp only [tokenizeAuxI, if_pos hin] at h
      simp only [tokenizeAux, if_pos hin]
      cases hstep : scanStep code s with
      | error e =>
        rw [hstep] at h
        simp at h
      | ok p =>
        obtain ⟨t?, s'⟩ := p
        rw [hstep] at h
        have h2 := ih code s' _ l h
        have h3 : ((accI ++ (t?.map fun t => (s.i, t)).toList).map Prod.snd) =
            accI.map Prod.snd ++ t?.toList := by
          cases t? <;> simp
        rw [h3] at h2
        exact h2
    · simp only [tokenizeAuxI, if_neg hin] at h
      simp only [tokenizeAux, if_neg hin]
      cases h
      rfl

/-- The instrumented token list is a chain under tokenOrder: offsets strictly
increase and (line, column) never decreases, provided the accumulator already
is one and its last entry is bounded by the current scan position. -/
theorem tokenizeAuxI_chain (fuel : Nat) :
    ∀ (code : List Char) (s : ScanState) (accI l : List (Nat × Token)),
    tokenizeAuxI fuel code s accI = .tokens l →
    List.Chain' tokenOrder accI →
    (∀ p ∈ accI.getLast?, p.1 < s.i ∧
      (p.2.lineno < s.lineno ∨
        (p.2.lineno = s.lineno ∧ p.2.columnno ≤ s.i - s.linestart + 1))) →
    List.Chain' tokenOrder l := by
  induction fuel with
  | zero =>
    intro code s accI l h _ _
    simp [tokenizeAuxI] at h
  | succ n ih =>
    intro code s accI l h hacc hlast
    by_cases hin : s.i < code.length
    · simp only [tokenizeAuxI, if_pos hin] at h
      cases hstep : scanStep code s with
      | error e =>
        rw [hstep] at h
        simp at h
      | ok p =>
        obtain ⟨t?, s'⟩ := p
        rw [hstep] at h
        have hm := scanStep_mono hin hstep
        cases t? with
        | none =>
          simp only [Option.map, Option.toList, List.append_nil] at h
          refine ih code s' accI l h hacc ?_
          intro p hp
          have hb := hlast p hp
          exact lastBound_step ⟨le_of_lt hb.1, hb.2⟩ hm
        | some t =>
          simp only [Option.map, Option.toList] at h
          have htp := scanStep_token_pos hstep
          refine ih code s' (accI ++ [(s.i, t)]) l h ?_ ?_
          · rw [List.chain'_append]
            refine ⟨hacc, List.chain'_singleton _, ?_⟩
            intro x hx y hy
            simp at hy
            subst hy
            have hb := hlast x hx
            refine ⟨by omega, ?_⟩
            rcases hb.2 with hlt | ⟨heq, hcol⟩
            · left
              rw [htp.1]
              exact hlt
            · right
              rw [htp.1, htp.2]
              exact ⟨heq, hcol⟩
          · intro p hp
            rw [List.getLast?_concat] at hp
            simp at hp
            subst hp
            exact @lastBound_step (s.i, t) s s'
              ⟨le_refl _, Or.inr ⟨htp.1, le_of_eq htp.2⟩⟩ hm
    · simp only [tokenizeAuxI, if_neg hin] at h
      cases h
      exact hacc

/-- Claim C8 counterexample: it is NOT true that every token's reported line is
the true 1-based line of its first character: tokenizing the two-line string
input, the token after the string literal reports line 1 while the newline
count before its offset puts it on line 2 — the newline inside the string
literal never incremented the counter. -/
theorem c8_true_position_counterexample :
    ¬ (∀ (code : String) (l : List (Nat × Token)),
        tokenizeI code = .tokens l →
        ∀ p ∈ l, p.2.lineno = trueLine (pyNormalize code) p.1) := by
  intro h
  have hc := h "\"a\nb\" c" [(0, ⟨"str", "\"a\nb\"", 1, 1⟩), (6, ⟨"id", "c", 1, 7⟩)]
    (by decide) (6, ⟨"id", "c", 1, 7⟩) (by decide)
  rw [show trueLine (pyNormalize "\"a\nb\" c") 6 = 2 from by decide] at hc
  exact absurd hc (by decide)

/-- Claim C8 (amended): the tokens returned by tokenize appear in strictly
increasing source-offset order with lexicographically non-decreasing
(line, column) — whitespace, newlines, comments produce no token but advance
the position counters, with the line counter incremented and the line start
reset for every newline outside string literals, including newlines inside
block comments (second conjunct: an identifier after a two-line block comment
reports line 2) — but a newline inside a string literal does not advance the
line counter, so a token's reported line can understate its true line (see the
counterexample), and positions after a multi-line string are not the true
ones. -/
theorem c8_positions_monotone :
    (∀ (code : String) (l : List (Nat × Token)),
      tokenizeI code = .tokens l →
      tokenize code = .tokens (l.map Prod.snd) ∧ List.Chain' tokenOrder l) ∧
    tokenize "/* x\n*/ a" = .tokens [⟨"id", "a", 2, 4⟩] := by
  refine ⟨?_, by decide⟩
  intro code l h
  constructor
  · exact tokenizeAuxI_tokens ((pyNormalize code).length + 1) (pyNormalize code)
      ⟨0, 1, 0⟩ [] l h
  · refine tokenizeAuxI_chain ((pyNormalize code).length + 1) (pyNormalize code)
      ⟨0, 1, 0⟩ [] l h List.chain'_nil ?_
    intro p hp
    simp at hp

theorem c8_positions_monotone_witness :
    tokenize "a b" = .tokens [⟨"id", "a", 1, 1⟩, ⟨"id", "b", 1, 3⟩] ∧
    List.Chain' tokenOrder [(0, ⟨"id", "a", 1, 1⟩), (2, ⟨"id", "b", 1, 3⟩)] :=
  c8_positions_monotone.1 "a b" [(0, ⟨"id", "a", 1, 1⟩), (2, ⟨"id", "b", 1, 3⟩)]
    (by decide)
